import Mathlib

/-!
Shallow embedding of `rust-sparse-table` (`src/lib.rs`): a static sparse
table answering range-minimum queries `[l, r)` over an immutable sequence.

Rust panics are modelled as values of an explicit `Panic` type carried in
`Except`; `Vec` indexing is modelled with `List.getElem?`, where a `none`
turns into the `indexOutOfRange` panic.  Machine integers (`u64`, `usize`)
are modelled as `Nat`, with an explicit `% 2 ^ 64` where the source casts
to `u64`.
-/

/-- The panics that `lib.rs` can raise, named after their messages.
`noSmallestInEmptyRange` is the spec's EmptyRangeError
("No smallest element in an empty range"); `rightBoundOutOfBounds`
("Right bound is out of bounds") and `zeroHasNoBitsSet`
("Zero has no bits set") are the two panics the spec lumps together as
OutOfBoundsError; `indexOutOfRange` is a slice-indexing (or usize
underflow) panic, which the code never actually reaches. -/
inductive Panic where
  | noSmallestInEmptyRange
  | rightBoundOutOfBounds
  | zeroHasNoBitsSet
  | indexOutOfRange
deriving DecidableEq, Repr

/-- The loop of `highest_bit`: `while sz != 0 { if (x & (((1 << sz) - 1) << sz)) != 0 { ans += sz; x >>= sz; } sz >>= 1; }`. -/
def hbLoop (x ans sz : Nat) : Nat :=
  if sz = 0 then ans
  else if x &&& (((1 <<< sz) - 1) <<< sz) ≠ 0 then
    hbLoop (x >>> sz) (ans + sz) (sz >>> 1)
  else
    hbLoop x ans (sz >>> 1)
termination_by sz
decreasing_by
  all_goals
    rw [Nat.shiftRight_one]
    omega

/-- `fn highest_bit(mut x: u64) -> usize`: panics on `x == 0`
("Zero has no bits set"), otherwise scans for the highest set bit starting
with `sz = 32`.  The argument is a `u64`, hence the `% 2 ^ 64`. -/
def highest_bit (x : Nat) : Except Panic Nat :=
  if x % 2 ^ 64 = 0 then Except.error Panic.zeroHasNoBitsSet
  else Except.ok (hbLoop (x % 2 ^ 64) 0 32)

/-- `pub struct SparseTable<T> { table: Vec<Vec<T>>, row: Vec<usize> }`. -/
structure SparseTable (T : Type) where
  table : List (List T)
  row : List Nat

namespace SparseTable

variable {T : Type} [LinearOrder T]

/-- One row-building step of `from_vec`:
`prev_row.iter().zip(prev_row.iter().skip(half)).map(|(l, r)| min(l, r).clone()).collect()`
(`half` is `span / 2`).  Rust's `std::cmp::min` returns its first argument
on ties, as does Lean's `min` on a `LinearOrder`. -/
def rowMin (prev : List T) (half : Nat) : List T :=
  (prev.zip (prev.drop half)).map fun p => min p.1 p.2

/-- The `while (1 << i) <= size` loop of `from_vec`, accumulating `rows`;
`rows.last().unwrap()` is modelled with `getLast?.getD []`, which the
(always nonempty) accumulator never falls back to. -/
def buildRows (size : Nat) (rows : List (List T)) (i : Nat) : List (List T) :=
  if 1 <<< i ≤ size then
    let span := 1 <<< i
    let prev_row := rows.getLast?.getD []
    buildRows size (rows ++ [rowMin prev_row (span / 2)]) (i + 1)
  else rows
termination_by size + 1 - i
decreasing_by
  have hi : i < 1 <<< i := Nat.one_shiftLeft i ▸ Nat.lt_two_pow i
  rename_i h
  omega

/-- `fn from_vec(seq: Vec<T>) -> Self`: builds the doubling table and the
floor-log lookup `row` (one entry for each `x` in `0..=size`, with
`highest_bit(x as u64)` for `x != 0` and `0` for `x == 0`; the guarded
call never panics, so its `Except.ok` payload is taken with `getD 0`). -/
def from_vec (seq : List T) : SparseTable T :=
  let size := seq.length
  { table := buildRows size [seq] 1
    row := (List.range (size + 1)).map fun x =>
      if x ≠ 0 then (highest_bit x).toOption.getD 0 else 0 }

/-- `pub fn new(seq: &[T]) -> Self { Self::from_vec(seq.to_vec()) }`. -/
def new (seq : List T) : SparseTable T :=
  from_vec seq

/-- `pub fn smallest(&self, l: usize, r: usize) -> &T`.  Checks `l >= r`
("No smallest element in an empty range"), then `r > self.table[0].len()`
("Right bound is out of bounds"), then reads `row = self.row[r - l]`,
`span = 1 << row`, and returns `min(&self.table[row][l], &self.table[row][r - span])`;
every indexing (and the usize subtraction `r - span`) panics when out of
range, modelled as `indexOutOfRange`. -/
def smallest (st : SparseTable T) (l r : Nat) : Except Panic T :=
  if l ≥ r then Except.error Panic.noSmallestInEmptyRange
  else match st.table[0]? with
  | none => Except.error Panic.indexOutOfRange
  | some row0 =>
    if r > row0.length then Except.error Panic.rightBoundOutOfBounds
    else match st.row[r - l]? with
    | none => Except.error Panic.indexOutOfRange
    | some row =>
      let span := 1 <<< row
      if span > r then Except.error Panic.indexOutOfRange
      else match st.table[row]? with
      | none => Except.error Panic.indexOutOfRange
      | some rowk =>
        match rowk[l]?, rowk[r - span]? with
        | some a, some b => Except.ok (min a b)
        | _, _ => Except.error Panic.indexOutOfRange

/-- `pub fn smallest_with_default(&self, l: usize, r: usize, default: &T) -> T`:
`if l >= r || l >= self.table[0].len() { return default.clone(); }` (the
`||` short-circuits, so `self.table[0]` is only read when `l < r`), then
`self.smallest(l, min(r, self.table[0].len())).clone()`. -/
def smallest_with_default (st : SparseTable T) (l r : Nat) (d : T) :
    Except Panic T :=
  if l ≥ r then Except.ok d
  else match st.table[0]? with
  | none => Except.error Panic.indexOutOfRange
  | some row0 =>
    if l ≥ row0.length then Except.ok d
    else smallest st l (min r row0.length)

end SparseTable

/-- The minimum of a list by direct linear scan, `none` on the empty list. -/
def scanMin {T : Type} [LinearOrder T] : List T → Option T
  | [] => none
  | x :: xs => some ((scanMin xs).elim x (min x))

/-- The window `[i, i + len)` of a sequence, as a sublist. -/
def window {T : Type} (s : List T) (i len : Nat) : List T :=
  (s.drop i).take len

/-- The rows that `buildRows` appends after the accumulator, described
without the accumulator: the row for the current `i`, then the rows for
`i + 1, i + 2, …`, while `1 <<< i ≤ size`. -/
def rowsFrom {T : Type} [LinearOrder T] (size : Nat) (prev : List T) (i : Nat) :
    List (List T) :=
  if 1 <<< i ≤ size then
    SparseTable.rowMin prev ((1 <<< i) / 2) ::
      rowsFrom size (SparseTable.rowMin prev ((1 <<< i) / 2)) (i + 1)
  else []
termination_by size + 1 - i
decreasing_by
  have hi : i < 1 <<< i := Nat.one_shiftLeft i ▸ Nat.lt_two_pow i
  rename_i h
  omega

/-- `row` is the level-`w` row of the table over `s`: its entry at `p` is
the minimum of the window `[p, p + w)` of `s`, present exactly while the
window fits. -/
def IsRow {T : Type} [LinearOrder T] (s row : List T) (w : Nat) : Prop :=
  ∀ p, row[p]? = if p + w ≤ s.length then scanMin (window s p w) else none

/-- Fuel-indexed version of the `highest_bit` loop: `none` means the fuel
ran out before the loop exited. -/
def hbLoopFuel (fuel : Nat) (x ans sz : Nat) : Option Nat :=
  match fuel with
  | 0 => none
  | fuel + 1 =>
    if sz = 0 then some ans
    else if x &&& (((1 <<< sz) - 1) <<< sz) ≠ 0 then
      hbLoopFuel fuel (x >>> sz) (ans + sz) (sz >>> 1)
    else
      hbLoopFuel fuel x ans (sz >>> 1)

/-- Fuel-indexed version of the row-building loop of `from_vec`. -/
def buildRowsFuel {T : Type} [LinearOrder T] (fuel : Nat) (size : Nat)
    (rows : List (List T)) (i : Nat) : Option (List (List T)) :=
  match fuel with
  | 0 => none
  | fuel + 1 =>
    if 1 <<< i ≤ size then
      let span := 1 <<< i
      let prev_row := rows.getLast?.getD []
      buildRowsFuel fuel size (rows ++ [SparseTable.rowMin prev_row (span / 2)]) (i + 1)
    else some rows

section ScanMinLemmas

variable {T : Type} [LinearOrder T]

theorem scanMin_eq_none_iff (xs : List T) : scanMin xs = none ↔ xs = [] := by
  cases xs <;> simp [scanMin]

theorem scanMin_eq_some_iff :
    ∀ {xs : List T} {m : T},
      scanMin xs = some m ↔ m ∈ xs ∧ ∀ y ∈ xs, m ≤ y := by
  intro xs
  induction xs with
  | nil => simp [scanMin]
  | cons x xs ih =>
    intro m
    rcases h : scanMin xs with _ | m'
    · have hnil : xs = [] := (scanMin_eq_none_iff xs).mp h
      subst hnil
      constructor
      · intro hx
        simp only [scanMin, scanMin_eq_none_iff, Option.elim_none, Option.some.injEq] at hx
        subst hx
        refine ⟨List.mem_singleton_self _, ?_⟩
        intro y hy
        rw [List.mem_singleton] at hy
        subst hy
        exact le_refl _
      · rintro ⟨hm, _⟩
        rw [List.mem_singleton] at hm
        subst hm
        simp [scanMin]
    · have ⟨hm', hle'⟩ := ih.mp h
      simp only [scanMin, h, Option.elim_some, Option.some.injEq]
      constructor
      · intro hmin
        subst hmin
        refine ⟨?_, ?_⟩
        · rcases min_cases x m' with ⟨he, _⟩ | ⟨he, _⟩
          · rw [he]; exact List.mem_cons_self x xs
          · rw [he]; exact List.mem_cons_of_mem x hm'
        · intro y hy
          rcases List.mem_cons.mp hy with hy | hy
          · subst hy; exact min_le_left _ _
          · exact le_trans (min_le_right x m') (hle' y hy)
      · rintro ⟨hm, hle⟩
        have hmx : m ≤ x := hle x (List.mem_cons_self x xs)
        have hmm' : m ≤ m' := hle m' (List.mem_cons_of_mem x hm')
        rcases List.mem_cons.mp hm with hmem | hmem
        · subst hmem
          exact min_eq_left hmm'
        · have : m' ≤ m := hle' m hmem
          have hm'm : m = m' := le_antisymm hmm' this
          subst hm'm
          exact min_eq_right hmx
end ScanMinLemmas

section WindowLemmas

variable {T : Type} [LinearOrder T]

theorem window_getElem? (s : List T) (i w q : Nat) :
    (window s i w)[q]? = if q < w then s[i + q]? else none := by
  by_cases h : q < w
  · rw [window, if_pos h, List.getElem?_take_of_lt h, List.getElem?_drop]
  · rw [window, if_neg h]
    refine List.getElem?_eq_none ?_
    calc ((s.drop i).take w).length ≤ w := by
          rw [List.length_take]; exact min_le_left _ _
      _ ≤ q := by omega

theorem mem_window_iff (s : List T) (i w : Nat) (y : T) :
    y ∈ window s i w ↔ ∃ q, q < w ∧ s[i + q]? = some y := by
  rw [List.mem_iff_getElem?]
  constructor
  · rintro ⟨q, hq⟩
    rw [window_getElem?] at hq
    by_cases h : q < w
    · rw [if_pos h] at hq; exact ⟨q, h, hq⟩
    · rw [if_neg h] at hq; exact absurd hq (by simp)
  · rintro ⟨q, hqw, hq⟩
    exact ⟨q, by rw [window_getElem?, if_pos hqw]; exact hq⟩

theorem window_length (s : List T) (i w : Nat) :
    (window s i w).length = min w (s.length - i) := by
  simp [window]

theorem scanMin_window_isSome (s : List T) (i w : Nat)
    (hw : 1 ≤ w) (hi : i < s.length) :
    ∃ a, scanMin (window s i w) = some a := by
  rcases h : scanMin (window s i w) with _ | a
  · rw [scanMin_eq_none_iff] at h
    have := window_length s i w
    rw [h] at this
    simp only [List.length_nil] at this
    omega
  · exact ⟨a, rfl⟩

/-- Two precomputed windows `[i1, i1 + w1)` and `[i2, i2 + w2)` that
together cover `[i1, i1 + len)` (with possible overlap) have the range
minimum `min a b` of their minima — the idempotent-overlap argument behind
both the row-doubling step and the O(1) query. -/
theorem scanMin_window_union {s : List T} {i1 w1 i2 w2 len : Nat} {a b : T}
    (h12 : i1 ≤ i2) (hw1 : w1 ≤ len) (hend : i2 + w2 = i1 + len)
    (hcov : i2 ≤ i1 + w1)
    (ha : scanMin (window s i1 w1) = some a)
    (hb : scanMin (window s i2 w2) = some b) :
    scanMin (window s i1 len) = some (min a b) := by
  rw [scanMin_eq_some_iff] at ha hb ⊢
  obtain ⟨hamem, hale⟩ := ha
  obtain ⟨hbmem, hble⟩ := hb
  obtain ⟨qa, hqa, hsa⟩ := (mem_window_iff s i1 w1 a).mp hamem
  obtain ⟨qb, hqb, hsb⟩ := (mem_window_iff s i2 w2 b).mp hbmem
  have hamem' : a ∈ window s i1 len :=
    (mem_window_iff s i1 len a).mpr ⟨qa, by omega, hsa⟩
  have hbmem' : b ∈ window s i1 len := by
    refine (mem_window_iff s i1 len b).mpr ⟨i2 - i1 + qb, by omega, ?_⟩
    have : i1 + (i2 - i1 + qb) = i2 + qb := by omega
    rw [this]; exact hsb
  constructor
  · rcases min_cases a b with ⟨he, _⟩ | ⟨he, _⟩ <;> rw [he]
    · exact hamem'
    · exact hbmem'
  · intro y hy
    obtain ⟨q, hq, hsy⟩ := (mem_window_iff s i1 len y).mp hy
    by_cases hcase : q < w1
    · have : y ∈ window s i1 w1 := (mem_window_iff s i1 w1 y).mpr ⟨q, hcase, hsy⟩
      exact le_trans (min_le_left a b) (hale y this)
    · have hy2 : y ∈ window s i2 w2 := by
        refine (mem_window_iff s i2 w2 y).mpr ⟨i1 + q - i2, by omega, ?_⟩
        have : i2 + (i1 + q - i2) = i1 + q := by omega
        rw [this]; exact hsy
      exact le_trans (min_le_right a b) (hble y hy2)

end WindowLemmas

section TableLemmas

variable {T : Type} [LinearOrder T]

theorem hbLoop_eq (x ans sz : Nat) :
    hbLoop x ans sz =
      if sz = 0 then ans
      else if x &&& (((1 <<< sz) - 1) <<< sz) ≠ 0 then
        hbLoop (x >>> sz) (ans + sz) (sz >>> 1)
      else hbLoop x ans (sz >>> 1) := by
  rw [hbLoop]

theorem rowsFrom_eq (size : Nat) (prev : List T) (i : Nat) :
    rowsFrom size prev i =
      if 1 <<< i ≤ size then
        SparseTable.rowMin prev ((1 <<< i) / 2) ::
          rowsFrom size (SparseTable.rowMin prev ((1 <<< i) / 2)) (i + 1)
      else [] := by
  rw [rowsFrom]

theorem buildRows_eq (size : Nat) (rows : List (List T)) (i : Nat) :
    SparseTable.buildRows size rows i =
      if 1 <<< i ≤ size then
        SparseTable.buildRows size
          (rows ++ [SparseTable.rowMin (rows.getLast?.getD []) ((1 <<< i) / 2)])
          (i + 1)
      else rows := by
  rw [SparseTable.buildRows]

theorem buildRows_append (size : Nat) :
    ∀ (g i : Nat) (rows : List (List T)) (prev : List T), size + 1 - i ≤ g →
      SparseTable.buildRows size (rows ++ [prev]) i =
        rows ++ prev :: rowsFrom size prev i := by
  intro g
  induction g with
  | zero =>
    intro i rows prev hg
    have hi : i < 1 <<< i := Nat.one_shiftLeft i ▸ Nat.lt_two_pow i
    have hcond : ¬(1 <<< i ≤ size) := by omega
    rw [buildRows_eq, if_neg hcond, rowsFrom_eq, if_neg hcond]
  | succ g ih =>
    intro i rows prev hg
    by_cases h : 1 <<< i ≤ size
    · have hi : i < 1 <<< i := Nat.one_shiftLeft i ▸ Nat.lt_two_pow i
      rw [buildRows_eq, if_pos h, rowsFrom_eq, if_pos h]
      rw [List.getLast?_concat, Option.getD_some]
      rw [ih (i + 1) (rows ++ [prev]) (SparseTable.rowMin prev ((1 <<< i) / 2))
        (by omega)]
      simp
    · rw [buildRows_eq, if_neg h, rowsFrom_eq, if_neg h]

theorem from_vec_table (seq : List T) :
    (SparseTable.from_vec seq).table = seq :: rowsFrom seq.length seq 1 := by
  show SparseTable.buildRows seq.length [seq] 1 = _
  have h := buildRows_append seq.length (seq.length + 1) 1 ([] : List (List T)) seq
    (by omega)
  simpa using h

theorem rowMin_length (prev : List T) (w : Nat) :
    (SparseTable.rowMin prev w).length = prev.length - w := by
  simp [SparseTable.rowMin, Nat.min_eq_right (Nat.sub_le _ _)]

theorem rowMin_isRow {s prev : List T} {w : Nat} (hw : 1 ≤ w)
    (hlen : prev.length = s.length + 1 - w) (hrow : IsRow s prev w) :
    (SparseTable.rowMin prev w).length = s.length + 1 - 2 * w ∧
      IsRow s (SparseTable.rowMin prev w) (2 * w) := by
  have hlen2 : (SparseTable.rowMin prev w).length = s.length + 1 - 2 * w := by
    rw [rowMin_length, hlen]; omega
  refine ⟨hlen2, ?_⟩
  intro p
  by_cases hc : p + 2 * w ≤ s.length
  · have hp1 : p < s.length := by omega
    have hp2 : p + w < s.length := by omega
    obtain ⟨a, ha⟩ := scanMin_window_isSome s p w hw hp1
    obtain ⟨b, hb⟩ := scanMin_window_isSome s (p + w) w hw hp2
    have h1 : prev[p]? = some a := by
      rw [hrow p, if_pos (by omega : p + w ≤ s.length)]; exact ha
    have h2 : (prev.drop w)[p]? = some b := by
      rw [List.getElem?_drop, hrow (w + p),
        if_pos (by omega : w + p + w ≤ s.length), Nat.add_comm w p]
      exact hb
    have hz : (prev.zip (prev.drop w))[p]? = some (a, b) :=
      List.getElem?_zip_eq_some.mpr ⟨h1, h2⟩
    rw [SparseTable.rowMin, List.getElem?_map, hz, Option.map_some', if_pos hc]
    exact (scanMin_window_union (Nat.le_add_right p w) (by omega : w ≤ 2 * w)
      (by omega) (by omega) ha hb).symm
  · rw [if_neg hc]
    refine List.getElem?_eq_none ?_
    rw [hlen2]; omega

theorem isRow_base (s : List T) : IsRow s s 1 := by
  intro p
  by_cases hp : p < s.length
  · rw [if_pos (by omega : p + 1 ≤ s.length)]
    rw [window, List.drop_eq_getElem_cons hp, List.take_succ_cons, List.take_zero]
    rw [List.getElem?_eq_getElem hp]
    simp [scanMin]
  · rw [if_neg (by omega : ¬(p + 1 ≤ s.length))]
    exact List.getElem?_eq_none (by omega)

theorem rowsFrom_spec (s : List T) :
    ∀ (k j : Nat) (prev : List T),
      prev.length = s.length + 1 - 2 ^ j → IsRow s prev (2 ^ j) →
      if 2 ^ (j + 1 + k) ≤ s.length
      then ∃ rk, (rowsFrom s.length prev (j + 1))[k]? = some rk ∧
        rk.length = s.length + 1 - 2 ^ (j + 1 + k) ∧ IsRow s rk (2 ^ (j + 1 + k))
      else (rowsFrom s.length prev (j + 1))[k]? = none := by
  intro k
  induction k with
  | zero =>
    intro j prev hlen hrow
    have h2 : (1 : Nat) <<< (j + 1) = 2 ^ (j + 1) := Nat.one_shiftLeft _
    have hhalf : (1 : Nat) <<< (j + 1) / 2 = 2 ^ j := by
      rw [h2, pow_succ]
      exact Nat.mul_div_cancel _ (by omega)
    have h21 : 2 * 2 ^ j = 2 ^ (j + 1) := by rw [pow_succ]; ring
    rw [rowsFrom_eq, Nat.add_zero, hhalf]
    by_cases h : 2 ^ (j + 1) ≤ s.length
    · have hc1 : 1 <<< (j + 1) ≤ s.length := by rw [h2]; exact h
      rw [if_pos hc1, if_pos h]
      obtain ⟨hL, hR⟩ := rowMin_isRow Nat.one_le_two_pow hlen hrow
      rw [h21] at hL hR
      exact ⟨_, List.getElem?_cons_zero, hL, hR⟩
    · have hc1 : ¬(1 <<< (j + 1) ≤ s.length) := by rw [h2]; exact h
      rw [if_neg hc1, if_neg h]
      rfl
  | succ k ih =>
    intro j prev hlen hrow
    have h2 : (1 : Nat) <<< (j + 1) = 2 ^ (j + 1) := Nat.one_shiftLeft _
    have hhalf : (1 : Nat) <<< (j + 1) / 2 = 2 ^ j := by
      rw [h2, pow_succ]
      exact Nat.mul_div_cancel _ (by omega)
    have h21 : 2 * 2 ^ j = 2 ^ (j + 1) := by rw [pow_succ]; ring
    rw [rowsFrom_eq, hhalf]
    by_cases h : 2 ^ (j + 1) ≤ s.length
    · have hc1 : 1 <<< (j + 1) ≤ s.length := by rw [h2]; exact h
      rw [if_pos hc1, List.getElem?_cons_succ]
      obtain ⟨hL, hR⟩ := rowMin_isRow Nat.one_le_two_pow hlen hrow
      rw [h21] at hL hR
      have hr := ih (j + 1) (SparseTable.rowMin prev (2 ^ j)) hL hR
      have hidx : j + 1 + 1 + k = j + 1 + (k + 1) := by omega
      rw [hidx] at hr
      exact hr
    · have hc1 : ¬(1 <<< (j + 1) ≤ s.length) := by rw [h2]; exact h
      rw [if_neg hc1]
      have hle : 2 ^ (j + 1) ≤ 2 ^ (j + 1 + (k + 1)) :=
        Nat.pow_le_pow_right (by omega) (by omega)
      rw [if_neg (by omega)]
      rfl

/-- Characterization of the level table of `from_vec`: row `k` exists iff
`k = 0` or `2 ^ k ≤ n`, and is then the level-`2 ^ k` row of windows. -/
theorem table_spec (seq : List T) (k : Nat) :
    if k = 0 ∨ 2 ^ k ≤ seq.length
    then ∃ rk, (SparseTable.from_vec seq).table[k]? = some rk ∧
      rk.length = seq.length + 1 - 2 ^ k ∧ IsRow seq rk (2 ^ k)
    else (SparseTable.from_vec seq).table[k]? = none := by
  rw [from_vec_table]
  cases k with
  | zero =>
    rw [if_pos (Or.inl rfl)]
    exact ⟨seq, by rw [List.getElem?_cons_zero], by simp, isRow_base seq⟩
  | succ k =>
    have h := rowsFrom_spec seq k 0 seq (by simp)
      (by rw [pow_zero]; exact isRow_base seq)
    have hidx : 0 + 1 + k = k + 1 := by omega
    rw [hidx] at h
    by_cases hc : 2 ^ (k + 1) ≤ seq.length
    · rw [if_pos (Or.inr hc)]
      rw [if_pos hc] at h
      obtain ⟨rk, h1, h2, h3⟩ := h
      exact ⟨rk, by rw [List.getElem?_cons_succ]; exact h1, h2, h3⟩
    · rw [if_neg (by omega)]
      rw [if_neg hc] at h
      rw [List.getElem?_cons_succ]
      exact h

theorem from_vec_row_getElem? (seq : List T) (x : Nat) :
    (SparseTable.from_vec seq).row[x]? =
      if x ≤ seq.length
      then some (if x ≠ 0 then (highest_bit x).toOption.getD 0 else 0)
      else none := by
  show ((List.range (seq.length + 1)).map _)[x]? = _
  rw [List.getElem?_map]
  by_cases h : x ≤ seq.length
  · rw [List.getElem?_range (by omega : x < seq.length + 1), if_pos h,
      Option.map_some']
  · rw [List.getElem?_eq_none (by simpa using by omega : (List.range (seq.length + 1)).length ≤ x),
      if_neg h, Option.map_none']

end TableLemmas

section HighestBitLemmas

/-- The mask test of the `highest_bit` loop isolates bits `sz … 2·sz − 1`. -/
theorem land_mask (x sz : Nat) :
    x &&& (((1 <<< sz) - 1) <<< sz) = x / 2 ^ sz % 2 ^ sz * 2 ^ sz := by
  apply Nat.eq_of_testBit_eq
  intro i
  rw [Nat.testBit_and, Nat.testBit_shiftLeft, Nat.one_shiftLeft,
    Nat.testBit_two_pow_sub_one]
  rw [← Nat.shiftLeft_eq, Nat.testBit_shiftLeft, ← Nat.shiftRight_eq_div_pow,
    Nat.testBit_mod_two_pow, Nat.testBit_shiftRight]
  by_cases h : sz ≤ i
  · have hidx : sz + (i - sz) = i := by omega
    rw [hidx]
    simp [h, Bool.and_comm, Bool.and_left_comm]
  · simp [h]

theorem land_mask_ne_zero {x sz : Nat} (hx : x < 2 ^ (2 * sz)) :
    x &&& (((1 <<< sz) - 1) <<< sz) ≠ 0 ↔ 2 ^ sz ≤ x := by
  have hpos : 0 < 2 ^ sz := pow_pos (by omega) sz
  have hdiv : x / 2 ^ sz < 2 ^ sz := by
    apply Nat.div_lt_of_lt_mul
    rw [← pow_add]
    have : sz + sz = 2 * sz := by omega
    rw [this]
    exact hx
  rw [land_mask, Nat.mod_eq_of_lt hdiv]
  constructor
  · intro h
    by_contra hlt
    have hx0 : x / 2 ^ sz = 0 := Nat.div_eq_of_lt (by omega)
    rw [hx0, Nat.zero_mul] at h
    exact h rfl
  · intro h hzero
    have h1 : 1 ≤ x / 2 ^ sz := (Nat.one_le_div_iff hpos).mpr h
    rcases Nat.mul_eq_zero.mp hzero with h0 | h0 <;> omega

/-- The bit-scan loop of `highest_bit`, started at `sz = 2 ^ j`, computes
the floor logarithm of any `x` with `1 ≤ x < 2 ^ 2 ^ (j + 1)`, added to
the accumulator. -/
theorem hbLoop_spec :
    ∀ (j x : Nat), 1 ≤ x → x < 2 ^ 2 ^ (j + 1) →
      ∃ d, 2 ^ d ≤ x ∧ x < 2 ^ (d + 1) ∧ ∀ ans, hbLoop x ans (2 ^ j) = ans + d := by
  intro j
  induction j with
  | zero =>
    intro x hx1 hx4
    have h4 : x < 4 := by simpa using hx4
    have hb2 : x < 2 ^ (2 * 1) := by simpa using h4
    by_cases h2 : 2 ≤ x
    · refine ⟨1, by simpa using h2, by simpa using h4, ?_⟩
      intro ans
      rw [pow_zero, hbLoop_eq, if_neg one_ne_zero,
        if_pos ((land_mask_ne_zero hb2).mpr (by simpa using h2))]
      have h10 : (1 : Nat) >>> 1 = 0 := rfl
      rw [h10, hbLoop_eq, if_pos rfl]
    · refine ⟨0, by simpa using hx1, by simpa using by omega, ?_⟩
      intro ans
      rw [pow_zero, hbLoop_eq, if_neg one_ne_zero,
        if_neg (fun hh => h2 (by simpa using (land_mask_ne_zero hb2).mp hh))]
      have h10 : (1 : Nat) >>> 1 = 0 := rfl
      rw [h10, hbLoop_eq, if_pos rfl]
      omega
  | succ j ih =>
    intro x hx1 hbound
    have hsz0 : (2 : Nat) ^ (j + 1) ≠ 0 := by positivity
    have hszhalf : (2 : Nat) ^ (j + 1) >>> 1 = 2 ^ j := by
      rw [Nat.shiftRight_one, pow_succ]
      exact Nat.mul_div_cancel _ (by omega)
    have hb2 : x < 2 ^ (2 * 2 ^ (j + 1)) := by
      have he : (2 : Nat) ^ (j + 1 + 1) = 2 * 2 ^ (j + 1) := by rw [pow_succ]; ring
      rw [← he]
      exact hbound
    have hApos : 0 < 2 ^ 2 ^ (j + 1) := pow_pos (by omega) _
    by_cases htest : 2 ^ 2 ^ (j + 1) ≤ x
    · have hx' : x >>> 2 ^ (j + 1) = x / 2 ^ 2 ^ (j + 1) :=
        Nat.shiftRight_eq_div_pow x _
      have hy1 : 1 ≤ x / 2 ^ 2 ^ (j + 1) := (Nat.one_le_div_iff hApos).mpr htest
      have hy2 : x / 2 ^ 2 ^ (j + 1) < 2 ^ 2 ^ (j + 1) := by
        apply Nat.div_lt_of_lt_mul
        rw [← pow_add]
        have : 2 ^ (j + 1) + 2 ^ (j + 1) = 2 * 2 ^ (j + 1) := by omega
        rw [this]
        exact hb2
      obtain ⟨d, hd1, hd2, hds⟩ := ih (x / 2 ^ 2 ^ (j + 1)) hy1 hy2
      refine ⟨2 ^ (j + 1) + d, ?_, ?_, ?_⟩
      · rw [pow_add]
        calc 2 ^ 2 ^ (j + 1) * 2 ^ d ≤ 2 ^ 2 ^ (j + 1) * (x / 2 ^ 2 ^ (j + 1)) :=
              Nat.mul_le_mul_left _ hd1
          _ ≤ x := by
              have := Nat.div_add_mod x (2 ^ 2 ^ (j + 1))
              omega
      · have hstep : x < 2 ^ 2 ^ (j + 1) * (x / 2 ^ 2 ^ (j + 1) + 1) := by
          rw [Nat.mul_succ]
          have h1 := Nat.div_add_mod x (2 ^ 2 ^ (j + 1))
          have h2 := Nat.mod_lt x hApos
          omega
        calc x < 2 ^ 2 ^ (j + 1) * (x / 2 ^ 2 ^ (j + 1) + 1) := hstep
          _ ≤ 2 ^ 2 ^ (j + 1) * 2 ^ (d + 1) := Nat.mul_le_mul_left _ (by omega)
          _ = 2 ^ (2 ^ (j + 1) + d + 1) := by rw [← pow_add]; ring_nf
      · intro ans
        rw [hbLoop_eq, if_neg hsz0,
          if_pos ((land_mask_ne_zero hb2).mpr htest), hszhalf, hx',
          hds (ans + 2 ^ (j + 1))]
        omega
    · have hxlt : x < 2 ^ 2 ^ (j + 1) := by omega
      obtain ⟨d, hd1, hd2, hds⟩ := ih x hx1 hxlt
      refine ⟨d, hd1, hd2, ?_⟩
      intro ans
      rw [hbLoop_eq, if_neg hsz0,
        if_neg (fun hh => htest ((land_mask_ne_zero hb2).mp hh)), hszhalf]
      exact hds ans

/-- `highest_bit` on a nonzero 64-bit input returns the floor logarithm. -/
theorem highest_bit_ok {x : Nat} (hx1 : 1 ≤ x) (hx : x < 2 ^ 64) :
    ∃ d, highest_bit x = Except.ok d ∧ 2 ^ d ≤ x ∧ x < 2 ^ (d + 1) := by
  have h64 : x < 2 ^ 2 ^ (5 + 1) := by norm_num; exact hx
  obtain ⟨d, h1, h2, h3⟩ := hbLoop_spec 5 x hx1 h64
  have hmod : x % 2 ^ 64 = x := Nat.mod_eq_of_lt hx
  refine ⟨d, ?_, h1, h2⟩
  rw [highest_bit, hmod, if_neg (by omega)]
  have h32 : (2 : Nat) ^ 5 = 32 := by norm_num
  have := h3 0
  rw [h32] at this
  rw [this, Nat.zero_add]

end HighestBitLemmas

section QueryLemmas

variable {T : Type} [LinearOrder T]

theorem from_vec_table_zero (seq : List T) :
    (SparseTable.from_vec seq).table[0]? = some seq := by
  rw [from_vec_table, List.getElem?_cons_zero]

/-- Full evaluation of a valid exact query: the lookup entry, the row it
selects, the two window entries it reads, and the returned minimum, which
is the linear-scan minimum of the queried window. -/
theorem smallest_spec (seq : List T) (l r : Nat)
    (hn : seq.length < 2 ^ 64) (hlr : l < r) (hr : r ≤ seq.length) :
    ∃ k rk a b,
      (SparseTable.from_vec seq).row[r - l]? = some k ∧
      2 ^ k ≤ r - l ∧ r - l < 2 ^ (k + 1) ∧
      (SparseTable.from_vec seq).table[k]? = some rk ∧
      rk.length = seq.length + 1 - 2 ^ k ∧
      rk[l]? = some a ∧ rk[r - 2 ^ k]? = some b ∧
      scanMin (window seq l (r - l)) = some (min a b) ∧
      SparseTable.smallest (SparseTable.from_vec seq) l r = Except.ok (min a b) := by
  have hlen1 : 1 ≤ r - l := by omega
  have hlenle : r - l ≤ seq.length := by omega
  have hlen64 : r - l < 2 ^ 64 := by omega
  obtain ⟨k, hk_ok, hk1, hk2⟩ := highest_bit_ok hlen1 hlen64
  have hrow : (SparseTable.from_vec seq).row[r - l]? = some k := by
    rw [from_vec_row_getElem?, if_pos hlenle, if_pos (by omega : r - l ≠ 0),
      hk_ok]
    rfl
  have hdouble : (2 : Nat) ^ (k + 1) = 2 * 2 ^ k := by rw [pow_succ]; ring
  have hkr : 2 ^ k ≤ r := by omega
  have htab := table_spec seq k
  have hkn : 2 ^ k ≤ seq.length := le_trans hk1 hlenle
  rw [if_pos (Or.inr hkn)] at htab
  obtain ⟨rk, htabk, hrklen, hrk⟩ := htab
  have hl_in : l + 2 ^ k ≤ seq.length := by omega
  have hr_in : r - 2 ^ k + 2 ^ k ≤ seq.length := by omega
  have hw1 : 1 ≤ 2 ^ k := Nat.one_le_two_pow
  obtain ⟨a, ha⟩ := scanMin_window_isSome seq l (2 ^ k) hw1 (by omega)
  obtain ⟨b, hb⟩ := scanMin_window_isSome seq (r - 2 ^ k) (2 ^ k) hw1 (by omega)
  have hrka : rk[l]? = some a := by rw [hrk l, if_pos hl_in]; exact ha
  have hrkb : rk[r - 2 ^ k]? = some b := by rw [hrk _, if_pos hr_in]; exact hb
  have hmin : scanMin (window seq l (r - l)) = some (min a b) :=
    scanMin_window_union (by omega) hk1 (by omega) (by omega) ha hb
  refine ⟨k, rk, a, b, hrow, hk1, hk2, htabk, hrklen, hrka, hrkb, hmin, ?_⟩
  have h1 : ¬ l ≥ r := by omega
  have h2 : ¬ r > seq.length := by omega
  have h3 : ¬ (1 <<< k > r) := by rw [Nat.one_shiftLeft]; omega
  simp only [SparseTable.smallest, if_neg h1, from_vec_table_zero]
  rw [if_neg h2, hrow]
  simp only [if_neg h3, htabk]
  rw [Nat.one_shiftLeft, hrka, hrkb]

end QueryLemmas

section FuelLemmas

variable {T : Type} [LinearOrder T]

theorem hbLoopFuel_spec :
    ∀ (fuel sz x ans : Nat), sz < fuel →
      hbLoopFuel fuel x ans sz = some (hbLoop x ans sz) := by
  intro fuel
  induction fuel with
  | zero => intro sz x ans h; omega
  | succ fuel ih =>
    intro sz x ans h
    by_cases h0 : sz = 0
    · subst h0
      rw [hbLoop_eq, if_pos rfl]
      simp [hbLoopFuel]
    · have hhalf : sz >>> 1 < sz := by rw [Nat.shiftRight_one]; omega
      by_cases ht : x &&& (((1 <<< sz) - 1) <<< sz) ≠ 0
      · conv_rhs => rw [hbLoop_eq]
        rw [if_neg h0, if_pos ht]
        simp only [hbLoopFuel, if_neg h0, if_pos ht]
        exact ih _ _ _ (by omega)
      · conv_rhs => rw [hbLoop_eq]
        rw [if_neg h0, if_neg ht]
        simp only [hbLoopFuel, if_neg h0, if_neg ht]
        exact ih _ _ _ (by omega)

theorem buildRowsFuel_spec :
    ∀ (fuel size i : Nat) (rows : List (List T)), size + 1 - i < fuel →
      buildRowsFuel fuel size rows i = some (SparseTable.buildRows size rows i) := by
  intro fuel
  induction fuel with
  | zero => intro size i rows h; omega
  | succ fuel ih =>
    intro size i rows h
    by_cases hc : 1 <<< i ≤ size
    · have hi : i < 1 <<< i := Nat.one_shiftLeft i ▸ Nat.lt_two_pow i
      conv_rhs => rw [buildRows_eq]
      rw [if_pos hc]
      simp only [buildRowsFuel, if_pos hc]
      exact ih size (i + 1) _ (by omega)
    · conv_rhs => rw [buildRows_eq]
      rw [if_neg hc]
      simp only [buildRowsFuel, if_neg hc]

end FuelLemmas

/-- C1: for every input sequence and every pair `l < r ≤ n` (lengths
bounded by the `u64` width, as `usize` is), `smallest(l, r)` on the built
structure returns the minimum of `s` over `[l, r)` as computed by a direct
linear scan. -/
theorem smallest_eq_linear_scan {T : Type} [LinearOrder T] (seq : List T)
    (l r : Nat) (hn : seq.length < 2 ^ 64) (hlr : l < r) (hr : r ≤ seq.length) :
    ∃ m, scanMin (window seq l (r - l)) = some m ∧
      SparseTable.smallest (SparseTable.from_vec seq) l r = Except.ok m := by
  obtain ⟨k, rk, a, b, _, _, _, _, _, _, _, hmin, hsm⟩ :=
    smallest_spec seq l r hn hlr hr
  exact ⟨min a b, hmin, hsm⟩

theorem smallest_eq_linear_scan_witness :
    ([3, 1, 2] : List Nat).length < 2 ^ 64 ∧ 0 < 3 ∧
      3 ≤ ([3, 1, 2] : List Nat).length ∧
      ∃ m, scanMin (window ([3, 1, 2] : List Nat) 0 (3 - 0)) = some m ∧
        SparseTable.smallest (SparseTable.from_vec [3, 1, 2]) 0 3 = Except.ok m :=
  ⟨by decide, by decide, by decide,
    smallest_eq_linear_scan [3, 1, 2] 0 3 (by decide) (by decide) (by decide)⟩

/-- C2: on every built structure, any query with `l ≥ r` (for any `r`,
including `r` past the end) fails with the EmptyRangeError panic, before
the bounds check is even reached. -/
theorem smallest_empty_range_error {T : Type} [LinearOrder T] (seq : List T)
    (l r : Nat) (h : l ≥ r) :
    SparseTable.smallest (SparseTable.from_vec seq) l r =
      Except.error Panic.noSmallestInEmptyRange := by
  simp only [SparseTable.smallest, if_pos h]

theorem smallest_empty_range_error_witness :
    (0 : Nat) ≥ 0 ∧
      SparseTable.smallest (SparseTable.from_vec ([] : List Nat)) 0 0 =
        Except.error Panic.noSmallestInEmptyRange :=
  ⟨le_refl 0, smallest_empty_range_error [] 0 0 (le_refl 0)⟩

/-- C3: on every built structure, a nonempty query whose right bound
exceeds the sequence length fails with the OutOfBoundsError panic. -/
theorem smallest_out_of_bounds_error {T : Type} [LinearOrder T] (seq : List T)
    (l r : Nat) (hlr : l < r) (hr : r > seq.length) :
    SparseTable.smallest (SparseTable.from_vec seq) l r =
      Except.error Panic.rightBoundOutOfBounds := by
  simp only [SparseTable.smallest, if_neg (by omega : ¬ l ≥ r),
    from_vec_table_zero]
  rw [if_pos hr]

theorem smallest_out_of_bounds_error_witness :
    (0 : Nat) < 1 ∧ 1 > ([] : List Nat).length ∧
      SparseTable.smallest (SparseTable.from_vec ([] : List Nat)) 0 1 =
        Except.error Panic.rightBoundOutOfBounds :=
  ⟨by decide, by decide, smallest_out_of_bounds_error [] 0 1 (by decide) (by decide)⟩

/-- C4: the defaulted query is total: it never raises a panic, and it
returns the default whenever `l ≥ r` or `l ≥ n`, for any `r`. -/
theorem smallest_with_default_total {T : Type} [LinearOrder T] (seq : List T)
    (l r : Nat) (d : T) (hn : seq.length < 2 ^ 64) :
    (∃ v, SparseTable.smallest_with_default (SparseTable.from_vec seq) l r d =
      Except.ok v) ∧
    (l ≥ r ∨ l ≥ seq.length →
      SparseTable.smallest_with_default (SparseTable.from_vec seq) l r d =
        Except.ok d) := by
  by_cases h1 : l ≥ r
  · have hd : SparseTable.smallest_with_default (SparseTable.from_vec seq) l r d =
        Except.ok d := by
      simp only [SparseTable.smallest_with_default, if_pos h1]
    exact ⟨⟨d, hd⟩, fun _ => hd⟩
  · by_cases h2 : l ≥ seq.length
    · have hd : SparseTable.smallest_with_default (SparseTable.from_vec seq) l r d =
          Except.ok d := by
        simp only [SparseTable.smallest_with_default, if_neg h1,
          from_vec_table_zero]
        rw [if_pos h2]
      exact ⟨⟨d, hd⟩, fun _ => hd⟩
    · have hdel : SparseTable.smallest_with_default (SparseTable.from_vec seq) l r d =
          SparseTable.smallest (SparseTable.from_vec seq) l (min r seq.length) := by
        simp only [SparseTable.smallest_with_default, if_neg h1,
          from_vec_table_zero]
        rw [if_neg h2]
      obtain ⟨k, rk, a, b, _, _, _, _, _, _, _, _, hsm⟩ :=
        smallest_spec seq l (min r seq.length) hn (by omega) (by omega)
      refine ⟨⟨min a b, by rw [hdel, hsm]⟩, ?_⟩
      rintro (h | h) <;> omega

theorem smallest_with_default_total_witness :
    ([4, 7] : List Nat).length < 2 ^ 64 ∧
      ((∃ v, SparseTable.smallest_with_default
          (SparseTable.from_vec ([4, 7] : List Nat)) 5 9 42 = Except.ok v) ∧
        (5 ≥ 9 ∨ 5 ≥ ([4, 7] : List Nat).length →
          SparseTable.smallest_with_default
            (SparseTable.from_vec ([4, 7] : List Nat)) 5 9 42 = Except.ok 42)) :=
  ⟨by decide, smallest_with_default_total [4, 7] 5 9 42 (by decide)⟩

/-- C5: whenever `l < r` and `l < n`, the defaulted query delegates to the
exact query on `[l, min(r, n))`, independently of the default; in
particular it equals `smallest(l, r)` whenever additionally `r ≤ n`.  Only
`r` is clamped, never `l`. -/
theorem smallest_with_default_delegates {T : Type} [LinearOrder T]
    (seq : List T) (l r : Nat) (d : T) (hlr : l < r) (hl : l < seq.length) :
    SparseTable.smallest_with_default (SparseTable.from_vec seq) l r d =
      SparseTable.smallest (SparseTable.from_vec seq) l (min r seq.length) ∧
    (r ≤ seq.length →
      SparseTable.smallest_with_default (SparseTable.from_vec seq) l r d =
        SparseTable.smallest (SparseTable.from_vec seq) l r) := by
  have hdel : SparseTable.smallest_with_default (SparseTable.from_vec seq) l r d =
      SparseTable.smallest (SparseTable.from_vec seq) l (min r seq.length) := by
    simp only [SparseTable.smallest_with_default, if_neg (by omega : ¬ l ≥ r),
      from_vec_table_zero]
    rw [if_neg (by omega : ¬ l ≥ seq.length)]
  refine ⟨hdel, fun hr => ?_⟩
  rw [hdel, Nat.min_eq_left hr]

theorem smallest_with_default_delegates_witness :
    (0 : Nat) < 9 ∧ 0 < ([5, 3] : List Nat).length ∧
      (SparseTable.smallest_with_default (SparseTable.from_vec ([5, 3] : List Nat))
          0 9 42 =
        SparseTable.smallest (SparseTable.from_vec ([5, 3] : List Nat))
          0 (min 9 ([5, 3] : List Nat).length) ∧
      (9 ≤ ([5, 3] : List Nat).length →
        SparseTable.smallest_with_default (SparseTable.from_vec ([5, 3] : List Nat))
            0 9 42 =
          SparseTable.smallest (SparseTable.from_vec ([5, 3] : List Nat)) 0 9)) :=
  ⟨by decide, by decide,
    smallest_with_default_delegates [5, 3] 0 9 42 (by decide) (by decide)⟩

/-- C6: level-table invariant of every built structure: row 0 is the
input; a row `k ≥ 1` exists exactly while `2 ^ k ≤ n`; a row for `2 ^ k ≤ n`
has length `n − 2 ^ k + 1`; each entry of row `k ≥ 1` is the `min` of the
two half-window entries of row `k − 1`; and every entry of row `k` is the
minimum of the window `[i, i + 2 ^ k)` of the input. -/
theorem table_invariant {T : Type} [LinearOrder T] (seq : List T) :
    (SparseTable.from_vec seq).table[0]? = some seq ∧
    (∀ k, 1 ≤ k →
      (((SparseTable.from_vec seq).table[k]?).isSome ↔ 2 ^ k ≤ seq.length)) ∧
    (∀ k rk, (SparseTable.from_vec seq).table[k]? = some rk →
      2 ^ k ≤ seq.length → rk.length = seq.length - 2 ^ k + 1) ∧
    (∀ k rk rk1, 1 ≤ k → (SparseTable.from_vec seq).table[k]? = some rk →
      (SparseTable.from_vec seq).table[k - 1]? = some rk1 →
      ∀ i, i < rk.length →
        ∃ a b, rk1[i]? = some a ∧ rk1[i + 2 ^ (k - 1)]? = some b ∧
          rk[i]? = some (min a b)) ∧
    (∀ k rk, (SparseTable.from_vec seq).table[k]? = some rk →
      ∀ i, i < rk.length → rk[i]? = scanMin (window seq i (2 ^ k))) := by
  refine ⟨from_vec_table_zero seq, ?_, ?_, ?_, ?_⟩
  · intro k hk
    have h := table_spec seq k
    by_cases hc : 2 ^ k ≤ seq.length
    · rw [if_pos (Or.inr hc)] at h
      obtain ⟨rk, h1, _, _⟩ := h
      simp [h1, hc]
    · rw [if_neg (by omega : ¬(k = 0 ∨ 2 ^ k ≤ seq.length))] at h
      simp [h, hc]
  · intro k rk hrk hkn
    have h := table_spec seq k
    rw [if_pos (Or.inr hkn)] at h
    obtain ⟨rk', h1, h2, _⟩ := h
    rw [hrk] at h1
    have he : rk = rk' := by injection h1
    subst he
    omega
  · intro k rk rk1 hk hrk hrk1 i hi
    have hw2 : 2 * 2 ^ (k - 1) = 2 ^ k := by
      conv_rhs => rw [show k = (k - 1) + 1 by omega]
      rw [pow_succ]; ring
    by_cases hc : 2 ^ k ≤ seq.length
    · have h := table_spec seq k
      rw [if_pos (Or.inr hc)] at h
      obtain ⟨rk', h1, h2, h3⟩ := h
      rw [hrk] at h1
      have he : rk = rk' := by injection h1
      subst he
      have hc1 : 2 ^ (k - 1) ≤ seq.length := by omega
      have h' := table_spec seq (k - 1)
      rw [if_pos (Or.inr hc1)] at h'
      obtain ⟨rk1', h1', h2', h3'⟩ := h'
      rw [hrk1] at h1'
      have he' : rk1 = rk1' := by injection h1'
      subst he'
      have hin : i + 2 ^ k ≤ seq.length := by omega
      have hw1 : 1 ≤ 2 ^ (k - 1) := Nat.one_le_two_pow
      obtain ⟨a, ha⟩ := scanMin_window_isSome seq i (2 ^ (k - 1)) hw1 (by omega)
      obtain ⟨b, hb⟩ :=
        scanMin_window_isSome seq (i + 2 ^ (k - 1)) (2 ^ (k - 1)) hw1 (by omega)
      refine ⟨a, b, ?_, ?_, ?_⟩
      · rw [h3' i, if_pos (by omega)]; exact ha
      · rw [h3' (i + 2 ^ (k - 1)), if_pos (by omega)]; exact hb
      · rw [h3 i, if_pos hin]
        exact scanMin_window_union (Nat.le_add_right _ _) (by omega) (by omega)
          (by omega) ha hb
    · have h := table_spec seq k
      rw [if_neg (by omega : ¬(k = 0 ∨ 2 ^ k ≤ seq.length))] at h
      rw [h] at hrk
      exact Option.noConfusion hrk
  · intro k rk hrk i hi
    have h := table_spec seq k
    by_cases hc : k = 0 ∨ 2 ^ k ≤ seq.length
    · rw [if_pos hc] at h
      obtain ⟨rk', h1, h2, h3⟩ := h
      rw [hrk] at h1
      have he : rk = rk' := by injection h1
      subst he
      have hk1 : (1 : Nat) ≤ 2 ^ k := Nat.one_le_two_pow
      rw [h3 i, if_pos (by omega)]
    · rw [if_neg hc] at h
      rw [h] at hrk
      exact Option.noConfusion hrk

/-- C7: floor-log table invariant of every built structure (lengths
bounded by the `u64` width): one entry per `x ∈ 0..=n`, entry 0 is 0, and
for `1 ≤ x ≤ n` the entry `v` satisfies `2 ^ v ≤ x < 2 ^ (v + 1)`. -/
theorem floor_log_invariant {T : Type} [LinearOrder T] (seq : List T)
    (hn : seq.length < 2 ^ 64) :
    (SparseTable.from_vec seq).row.length = seq.length + 1 ∧
    (SparseTable.from_vec seq).row[0]? = some 0 ∧
    (∀ x, 1 ≤ x → x ≤ seq.length →
      ∃ v, (SparseTable.from_vec seq).row[x]? = some v ∧
        2 ^ v ≤ x ∧ x < 2 ^ (v + 1)) := by
  refine ⟨?_, ?_, ?_⟩
  · show ((List.range (seq.length + 1)).map _).length = seq.length + 1
    rw [List.length_map, List.length_range]
  · rw [from_vec_row_getElem?, if_pos (by omega : 0 ≤ seq.length)]
    simp
  · intro x hx1 hxn
    obtain ⟨v, hv, h1, h2⟩ := highest_bit_ok hx1 (by omega)
    refine ⟨v, ?_, h1, h2⟩
    rw [from_vec_row_getElem?, if_pos hxn, if_pos (by omega : x ≠ 0), hv]
    rfl

theorem floor_log_invariant_witness :
    ([9, 8, 7, 6, 5] : List Nat).length < 2 ^ 64 ∧
      ((SparseTable.from_vec ([9, 8, 7, 6, 5] : List Nat)).row.length =
          ([9, 8, 7, 6, 5] : List Nat).length + 1 ∧
        (SparseTable.from_vec ([9, 8, 7, 6, 5] : List Nat)).row[0]? = some 0 ∧
        (∀ x, 1 ≤ x → x ≤ ([9, 8, 7, 6, 5] : List Nat).length →
          ∃ v, (SparseTable.from_vec ([9, 8, 7, 6, 5] : List Nat)).row[x]? = some v ∧
            2 ^ v ≤ x ∧ x < 2 ^ (v + 1))) :=
  ⟨by decide, floor_log_invariant [9, 8, 7, 6, 5] (by decide)⟩

/-- C8: the highest-bit helper maps `2 ^ k` to `k` for every `k < 64`, and
fails on input `0` with the zero-has-no-bits panic (the case the spec files
under OutOfBoundsError). -/
theorem highest_bit_powers :
    (∀ k, k < 64 → highest_bit (2 ^ k) = Except.ok k) ∧
    highest_bit 0 = Except.error Panic.zeroHasNoBitsSet := by
  constructor
  · intro k hk
    have hlt : (2 : Nat) ^ k < 2 ^ 64 := Nat.pow_lt_pow_right (by omega) hk
    obtain ⟨d, hd, h1, h2⟩ := highest_bit_ok Nat.one_le_two_pow hlt
    have hdk : d = k := by
      have ha : d ≤ k := (Nat.pow_le_pow_iff_right (by omega)).mp h1
      have hb : k < d + 1 := (Nat.pow_lt_pow_iff_right (by omega)).mp h2
      omega
    rw [hd, hdk]
  · simp [highest_bit]

theorem highest_bit_powers_witness :
    63 < 64 ∧ highest_bit (2 ^ 63) = Except.ok 63 :=
  ⟨by decide, highest_bit_powers.1 63 (by decide)⟩

/-- C9: every loop in the construction terminates: the bit-scan loop of
`highest_bit` (started at `sz = 32`) finishes within 33 iterations, the
row-building `while (1 << i) <= size` loop finishes within `size + 2`
iterations from any starting `i` (the fuel-indexed loops agree with the
loop functions), and the two (non-recursive) query operations evaluate to
a result on any input. -/
theorem construction_terminates :
    (∀ x ans : Nat, hbLoopFuel 33 x ans 32 = some (hbLoop x ans 32)) ∧
    (∀ (seq : List Nat) (i : Nat),
      buildRowsFuel (seq.length + 2) seq.length [seq] i =
        some (SparseTable.buildRows seq.length [seq] i)) ∧
    (∀ (st : SparseTable Nat) (l r : Nat),
      ∃ res, SparseTable.smallest st l r = res) ∧
    (∀ (st : SparseTable Nat) (l r d : Nat),
      ∃ res, SparseTable.smallest_with_default st l r d = res) := by
  refine ⟨?_, ?_, ?_, ?_⟩
  · intro x ans
    exact hbLoopFuel_spec 33 32 x ans (by omega)
  · intro seq i
    exact buildRowsFuel_spec (seq.length + 2) seq.length i [seq] (by omega)
  · intro st l r
    exact ⟨_, rfl⟩
  · intro st l r d
    exact ⟨_, rfl⟩

/-- C10: under the preconditions `l < r ≤ n` (lengths bounded by the `u64`
width), every internal access of `smallest` is in bounds: the lookup entry
at `r − l` exists, names an existing row (`2 ^ k ≤ n`), both `l` and
`r − 2 ^ k` are valid indices into that row (and `2 ^ k ≤ r`, so the
`usize` subtraction cannot underflow), and the query returns `Except.ok`
rather than any panic. -/
theorem smallest_index_safety {T : Type} [LinearOrder T] (seq : List T)
    (l r : Nat) (hn : seq.length < 2 ^ 64) (hlr : l < r) (hr : r ≤ seq.length) :
    ∃ k rk a b,
      (SparseTable.from_vec seq).row[r - l]? = some k ∧
      2 ^ k ≤ seq.length ∧
      (SparseTable.from_vec seq).table[k]? = some rk ∧
      2 ^ k ≤ r ∧ l < rk.length ∧ r - 2 ^ k < rk.length ∧
      rk[l]? = some a ∧ rk[r - 2 ^ k]? = some b ∧
      SparseTable.smallest (SparseTable.from_vec seq) l r =
        Except.ok (min a b) := by
  obtain ⟨k, rk, a, b, hrow, hk1, hk2, htab, hlen, ha, hb, _, hsm⟩ :=
    smallest_spec seq l r hn hlr hr
  refine ⟨k, rk, a, b, hrow, by omega, htab, by omega, by omega, by omega,
    ha, hb, hsm⟩

theorem smallest_index_safety_witness :
    ([6, 2, 8, 1] : List Nat).length < 2 ^ 64 ∧ 1 < 4 ∧
      4 ≤ ([6, 2, 8, 1] : List Nat).length ∧
      ∃ k rk a b,
        (SparseTable.from_vec ([6, 2, 8, 1] : List Nat)).row[4 - 1]? = some k ∧
        2 ^ k ≤ ([6, 2, 8, 1] : List Nat).length ∧
        (SparseTable.from_vec ([6, 2, 8, 1] : List Nat)).table[k]? = some rk ∧
        2 ^ k ≤ 4 ∧ 1 < rk.length ∧ 4 - 2 ^ k < rk.length ∧
        rk[1]? = some a ∧ rk[4 - 2 ^ k]? = some b ∧
        SparseTable.smallest (SparseTable.from_vec ([6, 2, 8, 1] : List Nat)) 1 4 =
          Except.ok (min a b) :=
  ⟨by decide, by decide, by decide,
    smallest_index_safety [6, 2, 8, 1] 1 4 (by decide) (by decide) (by decide)⟩
